import Mathlib

/-
Verification development for the NodeModal path-addressed read/modify/merge
logic (src/features/modals/NodeModal/index.tsx).

Modelling conventions:
- `JsonValue` is a closed union of the JavaScript values reachable in this
  code: the JSON data model plus `undef` (JavaScript `undefined`, which
  arises as the result of missing-property reads and as the array holes
  created by `setAtPath`'s index padding).  Arrays carry, next to their
  elements, the non-index string properties a JavaScript array object can
  receive from a `setAtPath` write (`JSON.stringify` ignores them).
- Property access `ref[key]` follows JavaScript semantics on this universe:
  a number key on an object is coerced to its decimal string, and a
  canonical numeric string on an array addresses the element with that
  index.  Array exotica outside the JSON data model (the `length` property,
  character indexing of primitive strings, prototype lookups) are out of
  model scope.
- The source file is an ES module, so it runs in strict mode: assigning a
  property on `null`, `undefined` or a primitive throws a `TypeError`.
  `setAtPath` is therefore modelled as returning `Option`; `none` means the
  call throws (the caller `handleSave` catches the exception).  No JS
  mutation is observable after such a throw, because the only throwing
  assignments are the very first write of a call, so the pure `none` result
  is a faithful rendering.
- JavaScript numbers are modelled as integers; the claims only involve
  integral values, and float formatting is out of scope.
-/

set_option autoImplicit false

/-- Model of the JavaScript values flowing through the NodeModal logic. -/
inductive JsonValue where
  | null
  | undefined
  | bool (b : Bool)
  | num (n : Int)
  | str (s : String)
  | arr (elems : List JsonValue) (props : List (String × JsonValue))
  | obj (entries : List (String × JsonValue))

/-- One path segment coming from `NodeData.path`: an object key (string) or
an array index (number, non-negative per the data model). -/
inductive Seg where
  | key (s : String)
  | idx (n : Nat)
  deriving DecidableEq

/-- True for `null` and `undefined`, the values caught by a loose `== null`
comparison in the source. -/
def isNullish : JsonValue → Bool
  | .null => true
  | .undefined => true
  | _ => false

/-- True for the two container kinds, i.e. non-null values with
`typeof ref == "object"` in the source. -/
def isContainer : JsonValue → Bool
  | .arr _ _ => true
  | .obj _ => true
  | _ => false

/-- True exactly when the source's merge guard holds of a value:
non-null, `typeof == "object"`, and not an array. -/
def isPlainObjB : JsonValue → Bool
  | .obj _ => true
  | _ => false

/-- First-match association lookup, the JavaScript property read. -/
def objLookup : List (String × JsonValue) → String → Option JsonValue
  | [], _ => none
  | (k, v) :: t, q => if k = q then some v else objLookup t q

/-- JavaScript property write: overwrite an existing key in place (keeping
its position) or append a new key at the end, as JS insertion order does. -/
def objSet : List (String × JsonValue) → String → JsonValue → List (String × JsonValue)
  | [], q, v => [(q, v)]
  | (k, w) :: t, q, v => if k = q then (k, v) :: t else (k, w) :: objSet t q v

/-- JavaScript array element write `a[n] = v`: replace in range, otherwise
pad with holes (`undefined`) up to index `n` and place `v` there. -/
def listSet : List JsonValue → Nat → JsonValue → List JsonValue
  | [], 0, v => [v]
  | [], n + 1, v => .undefined :: listSet [] n v
  | _ :: t, 0, v => v :: t
  | h :: t, n + 1, v => h :: listSet t n v

/-- Decimal digits of a natural number, fuelled so that the kernel can
evaluate it (the fuel is structurally consumed; `natDigits` supplies enough
of it for any input). -/
def natDigitsAux : Nat → Nat → List Char
  | 0, _ => []
  | fuel + 1, n =>
    if n < 10 then [Char.ofNat (48 + n)]
    else natDigitsAux fuel (n / 10) ++ [Char.ofNat (48 + n % 10)]

/-- Decimal digits of a natural number (what JS number-to-string produces
for the integers in model scope). -/
def natDigits (n : Nat) : List Char :=
  natDigitsAux (n + 1) n

/-- JavaScript rendering of an integer as a decimal string. -/
def renderInt (i : Int) : String :=
  if i < 0 then String.mk ('-' :: natDigits i.natAbs) else String.mk (natDigits i.natAbs)

/-- Value of an all-digit character sequence, `none` on other input. -/
def readDigits : List Char → Nat → Option Nat
  | [], acc => some acc
  | c :: t, acc =>
    if 48 ≤ c.toNat ∧ c.toNat ≤ 57 then readDigits t (acc * 10 + (c.toNat - 48)) else none

/-- Some canonical numeral, when the string is exactly the decimal rendering
of a natural number; JS treats exactly these strings as array indices. -/
def canonNat? (s : String) : Option Nat :=
  match s.data with
  | [] => none
  | l =>
    match readDigits l 0 with
    | some n => if natDigits n = l then some n else none
    | none => none

/-- Canonical form of a segment: a key that is a canonical numeral is
identified with the number it denotes, as JS property-key coercion does. -/
def canon : Seg → Seg
  | .idx n => .idx n
  | .key s =>
    match canonNat? s with
    | some n => .idx n
    | none => .key s

/-- The property key a segment denotes on an object (numbers are coerced to
their decimal rendering). -/
def jsKey : Seg → String
  | .key s => s
  | .idx n => String.mk (natDigits n)

/-- JavaScript property read `ref[seg]` on the modelled universe; absent
properties read as `undefined`. -/
def jsGet : JsonValue → Seg → JsonValue
  | .obj es, s => (objLookup es (jsKey s)).getD .undefined
  | .arr elems props, s =>
    match canon s with
    | .idx n => elems.getD n .undefined
    | .key k => (objLookup props k).getD .undefined
  | _, _ => .undefined

/-- JavaScript property write `ref[seg] = v`; `none` models the strict-mode
`TypeError` thrown when `ref` is `null`, `undefined` or a primitive. -/
def jsAssign : JsonValue → Seg → JsonValue → Option JsonValue
  | .obj es, s, v => some (.obj (objSet es (jsKey s) v))
  | .arr elems props, s, v =>
    match canon s with
    | .idx n => some (.arr (listSet elems n v) props)
    | .key k => some (.arr elems (objSet props k v))
  | _, _, _ => none

/-- True when a segment is a number, the `typeof path[i + 1] === "number"`
test of the source. -/
def segIsNum : Seg → Bool
  | .idx _ => true
  | .key _ => false

/-- Model of `getAtPath` (source lines 32-39): walk one segment at a time,
short-circuiting to `undefined` on a nullish reference. -/
def getAtPath : JsonValue → List Seg → JsonValue
  | root, [] => root
  | root, s :: rest => if isNullish root then .undefined else getAtPath (jsGet root s) rest

/-- Model of `setAtPath` (source lines 40-53): walk all segments but the
last, materializing a fresh `[]` or `{}` where the intermediate is nullish
or not an object, then assign the final segment.  `none` models the thrown
`TypeError` when the walk starts from a non-container root. -/
def setAtPath : JsonValue → List Seg → JsonValue → Option JsonValue
  | _, [], v => some v
  | root, [s], v => jsAssign root s v
  | root, s :: s2 :: rest, v =>
    if isContainer root then
      let child := jsGet root s
      let child2 :=
        if isNullish child || !isContainer child then
          (if segIsNum s2 then JsonValue.arr [] [] else JsonValue.obj [])
        else child
      (setAtPath child2 (s2 :: rest) v).bind (jsAssign root s)
    else none

/-- Functional replay of an in-place mutation of the value reached by
reference at a path: replace that value, leaving the spine otherwise
unchanged (used by the merge branch of `handleSave`, which mutates
`currentAtPath` through the live reference obtained by `getAtPath`). -/
def updAt : JsonValue → List Seg → JsonValue → JsonValue
  | _, [], v => v
  | root, s :: rest, v => (jsAssign root s (updAt (jsGet root s) rest v)).getD root

/-- Shallow merge of draft entries over current entries, the
`Object.entries(parsedDraft).forEach(([k, v]) => currentAtPath[k] = v)`
loop of source lines 107-109. -/
def mergeEntries (es ds : List (String × JsonValue)) : List (String × JsonValue) :=
  ds.foldl (fun acc kv => objSet acc kv.1 kv.2) es

/-- Shallow merge on values; only ever applied when both sides are plain
objects (the guard of source lines 98-105). -/
def shallowMerge : JsonValue → JsonValue → JsonValue
  | .obj es, .obj ds => .obj (mergeEntries es ds)
  | cur, _ => cur

/-- Hex digit character (lowercase), for control-character escapes. -/
def hexDigit (n : Nat) : Char :=
  if n < 10 then Char.ofNat (48 + n) else Char.ofNat (87 + n)

/-- JSON string escaping of one character, as `JSON.stringify` performs it. -/
def escChar (c : Char) : List Char :=
  if c = '"' then ['\\', '"']
  else if c = '\\' then ['\\', '\\']
  else if c = '\x08' then ['\\', 'b']
  else if c = '\t' then ['\\', 't']
  else if c = '\n' then ['\\', 'n']
  else if c = '\x0c' then ['\\', 'f']
  else if c = '\r' then ['\\', 'r']
  else if c.toNat < 32 then ['\\', 'u', '0', '0', hexDigit (c.toNat / 16), hexDigit (c.toNat % 16)]
  else [c]

/-- JSON string escaping of a character sequence. -/
def escChars : List Char → List Char
  | [] => []
  | c :: t => escChar c ++ escChars t

/-- JSON string literal for a string value, double-quoted and escaped. -/
def qstr (s : String) : String :=
  String.mk ('"' :: (escChars s.data ++ ['"']))

/-- True exactly for `undefined`, the member values `JSON.stringify` drops. -/
def isUndefB : JsonValue → Bool
  | .undefined => true
  | _ => false

/-- True when the member list has at least one member `JSON.stringify` will
print (members with `undefined` values are dropped). -/
def hasVisible (es : List (String × JsonValue)) : Bool :=
  es.any (fun kv => !isUndefB kv.2)

mutual

/-- Model of `JSON.stringify(v, null, 2)` at indentation `ind` (`ind` is the
indentation of the line on which the closing bracket of `v` sits).  An
`undefined` inside an array prints as `null`, exactly as `JSON.stringify`
renders array holes; `undefined` cannot reach the top level from the save path
because the committed root is always produced by `JSON.parse` plus
container-preserving updates. -/
def jsonStr (ind : String) : JsonValue → String
  | .null => "null"
  | .undefined => "null"
  | .bool true => "true"
  | .bool false => "false"
  | .num n => renderInt n
  | .str s => qstr s
  | .arr [] _ => "[]"
  | .arr (x :: t) _ => "[\n" ++ jsonItems (ind ++ "  ") (x :: t) ++ "\n" ++ ind ++ "]"
  | .obj es =>
    if hasVisible es then "\x7b\n" ++ jsonMembers (ind ++ "  ") es ++ "\n" ++ ind ++ "\x7d"
    else "\x7b\x7d"

/-- Array items of `JSON.stringify(_, null, 2)`: one per line at the given
indentation, separated by commas. -/
def jsonItems (ind : String) : List JsonValue → String
  | [] => ""
  | [x] => ind ++ jsonStr ind x
  | x :: y :: t => ind ++ jsonStr ind x ++ ",\n" ++ jsonItems ind (y :: t)

/-- Object members of `JSON.stringify(_, null, 2)`: quoted key, colon,
space, value; members with `undefined` values are skipped. -/
def jsonMembers (ind : String) : List (String × JsonValue) → String
  | [] => ""
  | (k, v) :: t =>
    if isUndefB v then jsonMembers ind t
    else
      ind ++ qstr k ++ ": " ++ jsonStr ind v ++
        (if hasVisible t then ",\n" ++ jsonMembers ind t else "")

end

mutual

/-- JavaScript `String(v)` coercion, as the template literal of source line
13 performs it on the row value. -/
def jsToString : JsonValue → String
  | .null => "null"
  | .undefined => "undefined"
  | .bool true => "true"
  | .bool false => "false"
  | .num n => renderInt n
  | .str s => s
  | .arr elems _ => jsArrJoin elems
  | .obj _ => "[object Object]"

/-- `Array.prototype.toString`, i.e. `join(",")`: elements are coerced with
`String(_)` except `null`/`undefined`, which print as empty. -/
def jsArrJoin : List JsonValue → String
  | [] => ""
  | [.null] => ""
  | [.undefined] => ""
  | [x] => jsToString x
  | .null :: y :: t => "," ++ jsArrJoin (y :: t)
  | .undefined :: y :: t => "," ++ jsArrJoin (y :: t)
  | x :: y :: t => jsToString x ++ "," ++ jsArrJoin (y :: t)

end

/-- One flattened row of a node's content (`NodeData["text"]`). -/
structure NodeRow where
  key : Option String
  value : JsonValue
  type : String

/-- JavaScript truthiness of the optional `row.key`: absent keys and the
empty string are falsy. -/
def keyTruthy : Option String → Bool
  | none => false
  | some s => if s = "" then false else true

/-- The object accumulated by the `forEach` loop of source lines 15-20:
rows typed as containers are dropped, and only truthy keys are inserted. -/
def buildObj (rows : List NodeRow) : List (String × JsonValue) :=
  rows.foldl
    (fun acc r =>
      if r.type ≠ "array" ∧ r.type ≠ "object" then
        (if keyTruthy r.key then objSet acc (r.key.getD "") r.value else acc)
      else acc)
    []

/-- Model of `normalizeNodeData` (source lines 11-22). -/
def normalizeNodeData : Option (List NodeRow) → String
  | none => "\x7b\x7d"
  | some [] => "\x7b\x7d"
  | some [r] =>
    if keyTruthy r.key then jsonStr "" (JsonValue.obj (buildObj [r]))
    else jsToString r.value
  | some rows => jsonStr "" (JsonValue.obj (buildObj rows))

/-- The session and store state visible to `handleSave`: the editing flag,
draft text and error of the modal session, the external store's committed
text and dirty flag, and the selected node's path. -/
structure EditorState where
  isEditing : Bool
  draft : String
  draftError : Option String
  contents : String
  hasChanges : Bool
  path : List Seg

/-- The root committed by a save attempt (source lines 92-113): parse the
fetched document and the draft, then either shallow-merge (both sides plain
objects) or replace via `setAtPath`.  `none` means some step threw.
Source line 112 discards `setAtPath`'s return value, so only its in-place
mutation of `root` reaches the commit: for a non-empty path the returned
tree is exactly that mutated root, but for the empty path `setAtPath`
mutates nothing and returns the draft, so the unchanged root is committed.
The `parse` parameter stands for `JSON.parse`, quantified over so the
theorems cover every behaviour of the platform parser. -/
def saveRoot (parse : String → Option JsonValue) (st : EditorState) : Option JsonValue :=
  match parse st.contents, parse st.draft with
  | some root, some d =>
    let cur := getAtPath root st.path
    if isPlainObjB d && isPlainObjB cur then
      some (updAt root st.path (shallowMerge cur d))
    else
      match st.path with
      | [] => some root
      | _ => setAtPath root st.path d
  | _, _ => none

/-- Model of `handleSave` (source lines 87-125): gated on the editing flag
and draft validity; on success commit the pretty-printed root and leave
editing, on any caught failure return the state unchanged. -/
def handleSave (parse : String → Option JsonValue) (st : EditorState) : EditorState :=
  if !st.isEditing || (parse st.draft).isNone then st
  else
    match saveRoot parse st with
    | some newRoot =>
      { st with contents := jsonStr "" newRoot, hasChanges := true, isEditing := false }
    | none => st

/-- Canonical forms of a whole path, for comparing locations up to the JS
coercion between number segments and their decimal-string keys. -/
def canonList (p : List Seg) : List Seg :=
  p.map canon

/-- True when the first path is an initial run of the second. -/
def initOf : List Seg → List Seg → Bool
  | [], _ => true
  | _ :: _, [] => false
  | a :: as, b :: bs => if a = b then initOf as bs else false

/-- True when the entry keys are pairwise distinct (`JSON.parse` output
always satisfies this, since a JS object cannot carry duplicate keys). -/
def nodupKeys : List (String × JsonValue) → Bool
  | [] => true
  | (k, _) :: t => (!(t.map Prod.fst).contains k) && nodupKeys t

/-- JSON whitespace character. -/
def isWsChar (c : Char) : Bool :=
  c = ' ' || c = '\t' || c = '\n' || c = '\r'

/-- JSON whitespace run. -/
def wsb (l : List Char) : Bool :=
  l.all isWsChar

/-- ASCII decimal digit. -/
def isDigitCh (c : Char) : Bool :=
  48 ≤ c.toNat && c.toNat ≤ 57

/-- Nonempty all-digit run to the end of input (exponent digits). -/
def jnumDigits1 (l : List Char) : Bool :=
  !l.isEmpty && l.all isDigitCh

/-- Exponent part after `e`/`E`: optional sign, then digits. -/
def jnumExpSign : List Char → Bool
  | [] => false
  | c :: r => if c = '+' ∨ c = '-' then jnumDigits1 r else jnumDigits1 (c :: r)

/-- Fraction digits after the first one, then optional exponent. -/
def jnumFracRest : List Char → Bool
  | [] => true
  | c :: r => if c = 'e' ∨ c = 'E' then jnumExpSign r else isDigitCh c && jnumFracRest r

/-- Fraction part after the dot: at least one digit, then optional exponent. -/
def jnumFrac : List Char → Bool
  | [] => false
  | c :: r => isDigitCh c && jnumFracRest r

/-- What may follow a complete integer part: end, fraction, or exponent. -/
def jnumAfterInt : List Char → Bool
  | [] => true
  | c :: r =>
    if c = '.' then jnumFrac r
    else if c = 'e' ∨ c = 'E' then jnumExpSign r
    else false

/-- Remaining integer digits, then fraction/exponent/end. -/
def jnumIntRest : List Char → Bool
  | [] => true
  | c :: r =>
    if c = '.' then jnumFrac r
    else if c = 'e' ∨ c = 'E' then jnumExpSign r
    else isDigitCh c && jnumIntRest r

/-- Integer part after the optional minus sign: `0` alone, or a nonzero
digit followed by digits. -/
def jnumBody : List Char → Bool
  | [] => false
  | c :: r => if c = '0' then jnumAfterInt r else isDigitCh c && jnumIntRest r

/-- The JSON number token grammar. -/
def jnum : List Char → Bool
  | [] => false
  | c :: r => if c = '-' then jnumBody r else jnumBody (c :: r)

/-- Hex digit character. -/
def isHexCh (c : Char) : Bool :=
  isDigitCh c || (97 ≤ c.toNat && c.toNat ≤ 102) || (65 ≤ c.toNat && c.toNat ≤ 70)

/-- Single-character JSON escape names. -/
def isEscCh (c : Char) : Bool :=
  c = '"' || c = '\\' || c = '/' || c = 'b' || c = 'f' || c = 'n' || c = 'r' || c = 't'

/-- Body of a JSON string token up to and including the closing quote. -/
def jstrBodyEnd : List Char → Bool
  | [] => false
  | c :: r =>
    if c = '"' then r.isEmpty
    else if c = '\\' then
      match r with
      | [] => false
      | e :: r2 =>
        if e = 'u' then
          match r2 with
          | a :: b :: c2 :: d :: r3 =>
            isHexCh a && isHexCh b && isHexCh c2 && isHexCh d && jstrBodyEnd r3
          | _ => false
        else isEscCh e && jstrBodyEnd r2
    else (32 ≤ c.toNat) && jstrBodyEnd r

/-- The JSON string token grammar. -/
def jstr : List Char → Bool
  | [] => false
  | c :: r => if c = '"' then jstrBodyEnd r else false

mutual

/-- The JSON value grammar over character sequences, as `JSON.parse`
accepts it (ECMA-404 / ECMA-262 `JSON.parse`): literals, number and string
tokens, and bracketed arrays and objects with interior whitespace. -/
inductive JVal : List Char → Prop where
  | vnull : JVal ['n', 'u', 'l', 'l']
  | vtrue : JVal ['t', 'r', 'u', 'e']
  | vfalse : JVal ['f', 'a', 'l', 's', 'e']
  | vnum (l : List Char) : jnum l = true → JVal l
  | vstr (l : List Char) : jstr l = true → JVal l
  | varrE (w : List Char) : wsb w = true → JVal ('[' :: (w ++ [']']))
  | varrN (l : List Char) : JItems l → JVal ('[' :: (l ++ [']']))
  | vobjE (w : List Char) : wsb w = true → JVal ('\x7b' :: (w ++ ['\x7d']))
  | vobjN (l : List Char) : JMembers l → JVal ('\x7b' :: (l ++ ['\x7d']))

/-- Comma-separated JSON array elements, each with surrounding whitespace. -/
inductive JItems : List Char → Prop where
  | last (w1 v w2 : List Char) : wsb w1 = true → JVal v → wsb w2 = true →
      JItems (w1 ++ v ++ w2)
  | cons (w1 v w2 rest : List Char) : wsb w1 = true → JVal v → wsb w2 = true →
      JItems rest → JItems (w1 ++ v ++ w2 ++ ',' :: rest)

/-- Comma-separated JSON object members, each with surrounding whitespace. -/
inductive JMembers : List Char → Prop where
  | last (w1 k w2 w3 v w4 : List Char) : wsb w1 = true → jstr k = true → wsb w2 = true →
      wsb w3 = true → JVal v → wsb w4 = true →
      JMembers (w1 ++ k ++ w2 ++ ':' :: (w3 ++ v ++ w4))
  | cons (w1 k w2 w3 v w4 rest : List Char) : wsb w1 = true → jstr k = true → wsb w2 = true →
      wsb w3 = true → JVal v → wsb w4 = true → JMembers rest →
      JMembers (w1 ++ k ++ w2 ++ ':' :: (w3 ++ v ++ w4 ++ ',' :: rest))

end

/-- A string `JSON.parse` accepts: a JSON value surrounded by whitespace. -/
def JText (s : String) : Prop :=
  ∃ w1 v w2, wsb w1 = true ∧ JVal v ∧ wsb w2 = true ∧ s.data = w1 ++ v ++ w2

/-- Scalar values of the data model (spec section 3): Null, Boolean, Number
or String. -/
def scalarShape : JsonValue → Bool
  | .null => true
  | .bool _ => true
  | .num _ => true
  | .str _ => true
  | _ => false

/-- Data-model invariant on a node's rows (spec section 3): a single
unkeyed row represents a single scalar, so its value is a scalar. -/
def wfSingleRow : List NodeRow → Bool
  | [r] => if keyTruthy r.key then true else scalarShape r.value
  | _ => true

/-- The flagged limitation case: exactly one unkeyed row holding a String. -/
def singleStrRow : List NodeRow → Bool
  | [r] => !keyTruthy r.key && (match r.value with | .str _ => true | _ => false)
  | _ => false

/-- A row the claim's description includes in the normalized mapping: not
container-typed, and with a present (truthy) key. -/
def rowIncluded (r : NodeRow) : Bool :=
  !(r.type = "array") && !(r.type = "object") && keyTruthy r.key

/-- The mapping described by the spec for the general normalize case:
filter the included rows, then insert them in order. -/
def specMap (rows : List NodeRow) : List (String × JsonValue) :=
  (rows.filter rowIncluded).foldl (fun acc r => objSet acc (r.key.getD "") r.value) []

theorem charToNat_ofNat (n : Nat) (h : n < 55296) : (Char.ofNat n).toNat = n := by
  unfold Char.ofNat
  rw [dif_pos (by constructor; omega)]
  rfl

theorem objLookup_objSet_self (es : List (String × JsonValue)) (k : String) (v : JsonValue) :
    objLookup (objSet es k v) k = some v := by
  induction es with
  | nil => simp [objSet, objLookup]
  | cons hd t ih =>
    obtain ⟨k0, w⟩ := hd
    by_cases hk : k0 = k
    · simp [objSet, hk, objLookup]
    · simp [objSet, hk, objLookup, ih]

theorem objLookup_objSet_other (es : List (String × JsonValue)) (k q : String) (v : JsonValue)
    (h : q ≠ k) : objLookup (objSet es k v) q = objLookup es q := by
  induction es with
  | nil =>
    have hkq : ¬ k = q := fun hh => h hh.symm
    simp [objSet, objLookup, hkq]
  | cons hd t ih =>
    obtain ⟨k0, w⟩ := hd
    by_cases hk : k0 = k
    · subst hk
      have hq : ¬ k0 = q := fun hh => h hh.symm
      simp [objSet, objLookup, hq]
    · simp only [objSet, if_neg hk, objLookup]
      by_cases hq : k0 = q
      · simp [hq]
      · simp [hq, ih]

theorem getD_listSet_self : ∀ (n : Nat) (l : List JsonValue) (v : JsonValue),
    (listSet l n v).getD n .undefined = v := by
  intro n
  induction n with
  | zero =>
    intro l v
    cases l <;> simp [listSet, List.getD]
  | succ n ih =>
    intro l v
    cases l with
    | nil => simpa [listSet, List.getD] using ih [] v
    | cons h t => simpa [listSet, List.getD] using ih t v

theorem getD_listSet_other : ∀ (n m : Nat) (l : List JsonValue) (v : JsonValue), m ≠ n →
    (listSet l n v).getD m .undefined = l.getD m .undefined := by
  intro n
  induction n with
  | zero =>
    intro m l v hm
    obtain ⟨m, rfl⟩ : ∃ m2, m = m2 + 1 := ⟨m - 1, by omega⟩
    cases l <;> simp [listSet, List.getD]
  | succ n ih =>
    intro m l v hm
    cases l with
    | nil =>
      cases m with
      | zero => simp [listSet, List.getD]
      | succ m => simpa [listSet, List.getD] using ih m [] v (by omega)
    | cons h t =>
      cases m with
      | zero => simp [listSet, List.getD]
      | succ m => simpa [listSet, List.getD] using ih m t v (by omega)

theorem readDigits_append (a b : List Char) (acc : Nat) :
    readDigits (a ++ b) acc = (readDigits a acc).bind (fun m => readDigits b m) := by
  induction a generalizing acc with
  | nil => simp [readDigits]
  | cons c t ih =>
    by_cases hc : 48 ≤ c.toNat ∧ c.toNat ≤ 57
    · simp [readDigits, hc, ih]
    · simp [readDigits, hc]

theorem readDigits_natDigitsAux : ∀ (fuel n acc : Nat), n < fuel →
    readDigits (natDigitsAux fuel n) acc =
      some (acc * 10 ^ (natDigitsAux fuel n).length + n) := by
  intro fuel
  induction fuel with
  | zero => omega
  | succ fuel ih =>
    intro n acc h
    by_cases h10 : n < 10
    · have hv : (Char.ofNat (48 + n)).toNat = 48 + n := charToNat_ofNat _ (by omega)
      simp only [natDigitsAux, if_pos h10, readDigits, hv]
      rw [if_pos (by omega)]
      simp [readDigits]
    · have hdiv : n / 10 < n := Nat.div_lt_self (by omega) (by omega)
      have hd : n / 10 < fuel := by omega
      have hm10 : n % 10 < 10 := Nat.mod_lt _ (by omega)
      have hv : (Char.ofNat (48 + n % 10)).toNat = 48 + n % 10 :=
        charToNat_ofNat _ (by omega)
      simp only [natDigitsAux, if_neg h10]
      rw [readDigits_append, ih _ acc hd]
      simp only [Option.some_bind, readDigits, hv]
      rw [if_pos (by omega)]
      simp only [readDigits, List.length_append, List.length_cons, List.length_nil, pow_succ]
      refine congrArg some ?_
      have hmod : 10 * (n / 10) + n % 10 = n := Nat.div_add_mod n 10
      generalize (10 : Nat) ^ (natDigitsAux fuel (n / 10)).length = X
      ring_nf
      omega

theorem readDigits_natDigits (n acc : Nat) :
    readDigits (natDigits n) acc = some (acc * 10 ^ (natDigits n).length + n) :=
  readDigits_natDigitsAux _ _ _ (Nat.lt_succ_self n)

theorem natDigits_ne_nil (n : Nat) : natDigits n ≠ [] := by
  unfold natDigits natDigitsAux
  split <;> simp

theorem canonNat?_cons (c : Char) (t : List Char) :
    canonNat? (String.mk (c :: t)) =
      (match readDigits (c :: t) 0 with
        | some m => if natDigits m = c :: t then some m else none
        | none => none) := rfl

theorem canonNat?_some {s : String} {n : Nat} (h : canonNat? s = some n) :
    s.data = natDigits n := by
  obtain ⟨l⟩ := s
  cases l with
  | nil => exact absurd h (by simp [canonNat?])
  | cons c t =>
    rw [canonNat?_cons] at h
    show c :: t = natDigits n
    cases hr : readDigits (c :: t) 0 with
    | none => rw [hr] at h; exact absurd h (by simp)
    | some m =>
      simp only [hr] at h
      by_cases hd : natDigits m = c :: t
      · rw [if_pos hd] at h
        obtain rfl : m = n := Option.some.inj h
        exact hd.symm
      · rw [if_neg hd] at h
        exact absurd h (by simp)

theorem canonNat?_mk_natDigits (n : Nat) : canonNat? (String.mk (natDigits n)) = some n := by
  have hr := readDigits_natDigits n 0
  simp only [Nat.zero_mul, Nat.zero_add] at hr
  cases hl : natDigits n with
  | nil => exact absurd hl (natDigits_ne_nil n)
  | cons c t =>
    rw [hl] at hr
    rw [canonNat?_cons, hr]
    show (if natDigits n = c :: t then some n else none) = some n
    rw [if_pos hl]

theorem stringExtData {a b : String} (h : a.data = b.data) : a = b := by
  obtain ⟨la⟩ := a
  obtain ⟨lb⟩ := b
  cases h
  rfl

theorem natDigits_inj {n m : Nat} (h : natDigits n = natDigits m) : n = m := by
  have h1 := readDigits_natDigits n 0
  rw [h] at h1
  have h2 := readDigits_natDigits m 0
  rw [h1] at h2
  simp only [Nat.zero_mul, Nat.zero_add] at h2
  exact Option.some.inj h2

theorem canon_key (a : String) : canon (Seg.key a) =
    (match canonNat? a with | some n => Seg.idx n | none => Seg.key a) := rfl

theorem canon_idx (n : Nat) : canon (Seg.idx n) = Seg.idx n := rfl

theorem canon_key_eq_idx {a : String} {n : Nat} (h : canon (Seg.key a) = Seg.idx n) :
    a = String.mk (natDigits n) := by
  rw [canon_key] at h
  cases hca : canonNat? a with
  | none =>
    simp only [hca] at h
    exact absurd h (by simp)
  | some m =>
    simp only [hca] at h
    obtain rfl : m = n := Seg.idx.inj h
    exact stringExtData (by simpa using canonNat?_some hca)

theorem canon_key_of_mk (n : Nat) : canon (Seg.key (String.mk (natDigits n))) = Seg.idx n := by
  rw [canon_key, canonNat?_mk_natDigits]

theorem jsKey_eq_of_canon_eq : ∀ {s t : Seg}, canon s = canon t → jsKey s = jsKey t := by
  intro s t h
  cases s with
  | key a =>
    cases t with
    | key b =>
      cases hca : canonNat? a with
      | none =>
        cases hcb : canonNat? b with
        | none =>
          rw [canon_key, canon_key] at h
          simp only [hca, hcb] at h
          simpa [jsKey] using Seg.key.inj h
        | some nb =>
          rw [canon_key, canon_key] at h
          simp only [hca, hcb] at h
          exact absurd h (by simp)
      | some na =>
        cases hcb : canonNat? b with
        | none =>
          rw [canon_key, canon_key] at h
          simp only [hca, hcb] at h
          exact absurd h (by simp)
        | some nb =>
          rw [canon_key, canon_key] at h
          simp only [hca, hcb] at h
          obtain rfl : na = nb := Seg.idx.inj h
          have ha := canonNat?_some hca
          have hb := canonNat?_some hcb
          show a = b
          exact stringExtData (ha.trans hb.symm)
    | idx n =>
      have hk : canon (Seg.key a) = Seg.idx n := by rw [h, canon_idx]
      simpa [jsKey] using canon_key_eq_idx hk
  | idx n =>
    cases t with
    | key b =>
      have hk : canon (Seg.key b) = Seg.idx n := by rw [← h, canon_idx]
      have hb := canon_key_eq_idx hk
      simp [jsKey, hb]
    | idx m =>
      obtain rfl : n = m := Seg.idx.inj (by simpa [canon_idx] using h)
      rfl

theorem canon_eq_of_jsKey_eq : ∀ {s t : Seg}, jsKey s = jsKey t → canon s = canon t := by
  intro s t h
  cases s with
  | key a =>
    cases t with
    | key b =>
      obtain rfl : a = b := by simpa [jsKey] using h
      rfl
    | idx n =>
      obtain rfl : a = String.mk (natDigits n) := by simpa [jsKey] using h
      rw [canon_key_of_mk, canon_idx]
  | idx n =>
    cases t with
    | key b =>
      obtain rfl : b = String.mk (natDigits n) := by simpa [jsKey] using h.symm
      rw [canon_key_of_mk, canon_idx]
    | idx m =>
      have hd : natDigits n = natDigits m := by
        have hs : String.mk (natDigits n) = String.mk (natDigits m) := by
          simpa [jsKey] using h
        exact congrArg String.data hs
      obtain rfl : n = m := natDigits_inj hd
      rfl

theorem jsGet_canon {T : JsonValue} {s t : Seg} (h : canon s = canon t) :
    jsGet T s = jsGet T t := by
  cases T with
  | obj es =>
    simp only [jsGet]
    rw [jsKey_eq_of_canon_eq h]
  | arr elems props =>
    simp only [jsGet]
    rw [h]
  | null => rfl
  | undefined => rfl
  | bool b => rfl
  | num n => rfl
  | str s2 => rfl

theorem jsAssign_some_container {T T2 : JsonValue} {s : Seg} {v : JsonValue}
    (h : jsAssign T s v = some T2) : isContainer T = true ∧ isContainer T2 = true := by
  cases T with
  | obj es =>
    obtain rfl : JsonValue.obj (objSet es (jsKey s) v) = T2 := Option.some.inj h
    exact ⟨rfl, rfl⟩
  | arr elems props =>
    cases hcs : canon s with
    | idx n =>
      simp only [jsAssign, hcs] at h
      obtain rfl := Option.some.inj h
      exact ⟨rfl, rfl⟩
    | key k =>
      simp only [jsAssign, hcs] at h
      obtain rfl := Option.some.inj h
      exact ⟨rfl, rfl⟩
  | null => exact absurd h (by simp [jsAssign])
  | undefined => exact absurd h (by simp [jsAssign])
  | bool b => exact absurd h (by simp [jsAssign])
  | num n => exact absurd h (by simp [jsAssign])
  | str s2 => exact absurd h (by simp [jsAssign])

theorem jsAssign_container_some {T : JsonValue} (h : isContainer T = true) (s : Seg)
    (v : JsonValue) : ∃ T2, jsAssign T s v = some T2 := by
  cases T with
  | obj es => exact ⟨_, rfl⟩
  | arr elems props =>
    cases hcs : canon s with
    | idx n => exact ⟨JsonValue.arr (listSet elems n v) props, by simp [jsAssign, hcs]⟩
    | key k => exact ⟨JsonValue.arr elems (objSet props k v), by simp [jsAssign, hcs]⟩
  | null => exact absurd h (by simp [isContainer])
  | undefined => exact absurd h (by simp [isContainer])
  | bool b => exact absurd h (by simp [isContainer])
  | num n => exact absurd h (by simp [isContainer])
  | str s2 => exact absurd h (by simp [isContainer])

theorem jsGet_jsAssign_same {T T2 : JsonValue} {s t : Seg} {v : JsonValue}
    (ha : jsAssign T s v = some T2) (hc : canon t = canon s) : jsGet T2 t = v := by
  cases T with
  | obj es =>
    obtain rfl : JsonValue.obj (objSet es (jsKey s) v) = T2 := Option.some.inj ha
    simp only [jsGet]
    rw [jsKey_eq_of_canon_eq hc, objLookup_objSet_self]
    rfl
  | arr elems props =>
    cases hcs : canon s with
    | idx n =>
      simp only [jsAssign, hcs] at ha
      obtain rfl := Option.some.inj ha
      simp only [jsGet, hc, hcs]
      exact getD_listSet_self n elems v
    | key k =>
      simp only [jsAssign, hcs] at ha
      obtain rfl := Option.some.inj ha
      simp only [jsGet, hc, hcs]
      rw [objLookup_objSet_self]
      rfl
  | null => exact absurd ha (by simp [jsAssign])
  | undefined => exact absurd ha (by simp [jsAssign])
  | bool b => exact absurd ha (by simp [jsAssign])
  | num n => exact absurd ha (by simp [jsAssign])
  | str s2 => exact absurd ha (by simp [jsAssign])

theorem jsGet_jsAssign_other {T T2 : JsonValue} {s t : Seg} {v : JsonValue}
    (ha : jsAssign T s v = some T2) (hc : canon t ≠ canon s) : jsGet T2 t = jsGet T t := by
  cases T with
  | obj es =>
    obtain rfl : JsonValue.obj (objSet es (jsKey s) v) = T2 := Option.some.inj ha
    have hk : jsKey t ≠ jsKey s := fun hk => hc (canon_eq_of_jsKey_eq hk)
    simp only [jsGet]
    rw [objLookup_objSet_other _ _ _ _ hk]
  | arr elems props =>
    cases hcs : canon s with
    | idx n =>
      simp only [jsAssign, hcs] at ha
      obtain rfl := Option.some.inj ha
      cases hct : canon t with
      | idx m =>
        have hm : m ≠ n := by
          intro hmn
          exact hc (by rw [hct, hcs, hmn])
        simp only [jsGet, hct]
        exact getD_listSet_other n m elems v hm
      | key k2 => simp only [jsGet, hct]
    | key k =>
      simp only [jsAssign, hcs] at ha
      obtain rfl := Option.some.inj ha
      cases hct : canon t with
      | idx m => simp only [jsGet, hct]
      | key k2 =>
        have hk : k2 ≠ k := by
          intro hkk
          exact hc (by rw [hct, hcs, hkk])
        simp only [jsGet, hct]
        rw [objLookup_objSet_other _ _ _ _ hk]
  | null => exact absurd ha (by simp [jsAssign])
  | undefined => exact absurd ha (by simp [jsAssign])
  | bool b => exact absurd ha (by simp [jsAssign])
  | num n => exact absurd ha (by simp [jsAssign])
  | str s2 => exact absurd ha (by simp [jsAssign])

theorem not_nullish_of_container {T : JsonValue} (h : isContainer T = true) :
    isNullish T = false := by
  cases T <;> simp_all [isContainer, isNullish]

theorem getAtPath_undefined : ∀ (p : List Seg), getAtPath .undefined p = .undefined := by
  intro p
  cases p <;> simp [getAtPath, isNullish]

theorem getAtPath_nonContainer {T : JsonValue} (h : isContainer T = false) (s : Seg)
    (r : List Seg) : getAtPath T (s :: r) = .undefined := by
  cases T with
  | null => simp [getAtPath, isNullish]
  | undefined => simp [getAtPath, isNullish]
  | bool b => simp [getAtPath, isNullish, jsGet, getAtPath_undefined]
  | num n => simp [getAtPath, isNullish, jsGet, getAtPath_undefined]
  | str s2 => simp [getAtPath, isNullish, jsGet, getAtPath_undefined]
  | arr elems props => exact absurd h (by simp [isContainer])
  | obj es => exact absurd h (by simp [isContainer])

theorem getAtPath_append (T : JsonValue) (q r : List Seg) :
    getAtPath T (q ++ r) = getAtPath (getAtPath T q) r := by
  induction q generalizing T with
  | nil => rfl
  | cons s q2 ih =>
    by_cases hT : isNullish T = true
    · simp only [List.cons_append, getAtPath, if_pos hT]
      rw [getAtPath_undefined]
    · simp only [List.cons_append, getAtPath, if_neg hT]
      exact ih (jsGet T s)

theorem child2_container (child : JsonValue) (s2 : Seg) :
    isContainer
      (if isNullish child || !isContainer child then
        (if segIsNum s2 then JsonValue.arr [] [] else JsonValue.obj [])
      else child) = true := by
  by_cases h : (isNullish child || !isContainer child) = true
  · rw [if_pos h]
    by_cases h2 : segIsNum s2 = true
    · rw [if_pos h2]
      rfl
    · rw [if_neg h2]
      rfl
  · rw [if_neg h]
    simp only [Bool.or_eq_true, Bool.not_eq_true', not_or] at h
    cases hcc : isContainer child with
    | true => rfl
    | false => exact absurd hcc h.2

theorem setAtPath_some : ∀ (p : List Seg) (T v : JsonValue), (p = [] ∨ isContainer T = true) →
    ∃ T2, setAtPath T p v = some T2 := by
  intro p
  induction p with
  | nil =>
    intro T v _
    exact ⟨v, rfl⟩
  | cons s rest ih =>
    intro T v h
    have hT : isContainer T = true := by
      rcases h with h | h
      · exact absurd h (by simp)
      · exact h
    cases rest with
    | nil => exact jsAssign_container_some hT s v
    | cons s2 r =>
      obtain ⟨rest2, hrest⟩ :=
        ih (if isNullish (jsGet T s) || !isContainer (jsGet T s) then
              (if segIsNum s2 then JsonValue.arr [] [] else JsonValue.obj [])
            else jsGet T s) v (Or.inr (child2_container _ _))
      obtain ⟨T2, hT2⟩ := jsAssign_container_some hT s rest2
      refine ⟨T2, ?_⟩
      simp only [setAtPath]
      rw [if_pos hT, hrest]
      exact hT2

theorem getAtPath_setAtPath : ∀ (p : List Seg) {T v T2 : JsonValue},
    setAtPath T p v = some T2 → getAtPath T2 p = v := by
  intro p
  induction p with
  | nil =>
    intro T v T2 h
    cases Option.some.inj h
    rfl
  | cons s rest ih =>
    intro T v T2 h
    cases rest with
    | nil =>
      have hcont := (jsAssign_some_container h).2
      have hget : jsGet T2 s = v := jsGet_jsAssign_same h rfl
      have hnn : ¬ isNullish T2 = true := by simp [not_nullish_of_container hcont]
      simp only [getAtPath, if_neg hnn]
      rw [hget]
    | cons s2 r =>
      simp only [setAtPath] at h
      by_cases hT : isContainer T = true
      · rw [if_pos hT] at h
        obtain ⟨rest2, hrest, hass⟩ := Option.bind_eq_some.mp h
        have hcont2 := (jsAssign_some_container hass).2
        have hget : jsGet T2 s = rest2 := jsGet_jsAssign_same hass rfl
        have hnn : ¬ isNullish T2 = true := by simp [not_nullish_of_container hcont2]
        simp only [getAtPath, if_neg hnn]
        rw [hget]
        exact ih hrest
      · rw [if_neg hT] at h
        exact absurd h (by simp)

theorem getAtPath_arrNil (x : Seg) (xs : List Seg) :
    getAtPath (JsonValue.arr [] []) (x :: xs) = .undefined := by
  have hg : jsGet (JsonValue.arr [] []) x = .undefined := by
    simp only [jsGet]
    cases canon x <;> simp [objLookup, List.getD]
  simp only [getAtPath, isNullish, hg]
  rw [getAtPath_undefined]
  simp

theorem getAtPath_objNil (x : Seg) (xs : List Seg) :
    getAtPath (JsonValue.obj []) (x :: xs) = .undefined := by
  have hg : jsGet (JsonValue.obj []) x = .undefined := by
    simp [jsGet, objLookup]
  simp only [getAtPath, isNullish, hg]
  rw [getAtPath_undefined]
  simp

theorem container_false_of_cond {c : JsonValue}
    (h : (isNullish c || !isContainer c) = true) : isContainer c = false := by
  cases c <;> simp_all [isNullish, isContainer]

theorem setAtPath_frame : ∀ (p : List Seg) {T v T2 : JsonValue} (q : List Seg),
    setAtPath T p v = some T2 →
    initOf (canonList p) (canonList q) = false →
    initOf (canonList q) (canonList p) = false →
    getAtPath T2 q = getAtPath T q := by
  intro p
  induction p with
  | nil =>
    intro T v T2 q hset h1 h2
    exact absurd h1 (by simp [canonList, initOf])
  | cons s rest ih =>
    intro T v T2 q hset h1 h2
    cases q with
    | nil => exact absurd h2 (by simp [canonList, initOf])
    | cons t qr =>
      cases rest with
      | nil =>
        have hT := (jsAssign_some_container hset).1
        have hT2 := (jsAssign_some_container hset).2
        have hnnT : ¬ isNullish T = true := by simp [not_nullish_of_container hT]
        have hnnT2 : ¬ isNullish T2 = true := by simp [not_nullish_of_container hT2]
        by_cases hst : canon t = canon s
        · exfalso
          simp only [canonList, List.map_cons, List.map_nil, initOf] at h1
          rw [if_pos hst.symm] at h1
          exact absurd h1 (by simp [initOf])
        · have hget := jsGet_jsAssign_other hset hst
          simp only [getAtPath, if_neg hnnT, if_neg hnnT2, hget]
      | cons s2 r =>
        simp only [setAtPath] at hset
        by_cases hT : isContainer T = true
        swap
        · rw [if_neg hT] at hset
          exact absurd hset (by simp)
        rw [if_pos hT] at hset
        obtain ⟨rest2, hrest, hass⟩ := Option.bind_eq_some.mp hset
        have hT2 := (jsAssign_some_container hass).2
        have hnnT : ¬ isNullish T = true := by simp [not_nullish_of_container hT]
        have hnnT2 : ¬ isNullish T2 = true := by simp [not_nullish_of_container hT2]
        by_cases hst : canon t = canon s
        · have hgt2 : jsGet T2 t = rest2 := jsGet_jsAssign_same hass hst
          have hgt : jsGet T t = jsGet T s := jsGet_canon hst
          simp only [canonList, List.map_cons, initOf] at h1 h2
          rw [if_pos hst.symm] at h1
          rw [if_pos hst] at h2
          simp only [getAtPath, if_neg hnnT, if_neg hnnT2, hgt2, hgt]
          have hIH := ih qr hrest (by simpa [canonList] using h1) (by simpa [canonList] using h2)
          rw [hIH]
          by_cases hchild : (isNullish (jsGet T s) || !isContainer (jsGet T s)) = true
          · cases qr with
            | nil =>
              exfalso
              exact absurd h2 (by simp [initOf])
            | cons t2 qr2 =>
              rw [if_pos hchild]
              have hcf : isContainer (jsGet T s) = false := container_false_of_cond hchild
              rw [getAtPath_nonContainer hcf]
              by_cases hnum : segIsNum s2 = true
              · rw [if_pos hnum, getAtPath_arrNil]
              · rw [if_neg hnum, getAtPath_objNil]
          · rw [if_neg hchild]
        · have hgo := jsGet_jsAssign_other hass hst
          simp only [getAtPath, if_neg hnnT, if_neg hnnT2, hgo]

theorem getAtPath_updAt : ∀ (p : List Seg) {T : JsonValue} (v : JsonValue),
    isPlainObjB (getAtPath T p) = true → getAtPath (updAt T p v) p = v := by
  intro p
  induction p with
  | nil =>
    intro T v _
    rfl
  | cons s rest ih =>
    intro T v hobj
    have hT : isContainer T = true := by
      by_cases hn : isNullish T = true
      · rw [getAtPath, if_pos hn] at hobj
        exact absurd hobj (by simp [isPlainObjB])
      · cases hc : isContainer T with
        | true => rfl
        | false =>
          rw [getAtPath_nonContainer hc] at hobj
          exact absurd hobj (by simp [isPlainObjB])
    have hnnT : ¬ isNullish T = true := by simp [not_nullish_of_container hT]
    rw [getAtPath, if_neg hnnT] at hobj
    obtain ⟨T2, hT2⟩ := jsAssign_container_some hT s (updAt (jsGet T s) rest v)
    have hT2c := (jsAssign_some_container hT2).2
    have hnnT2 : ¬ isNullish T2 = true := by simp [not_nullish_of_container hT2c]
    simp only [updAt, hT2, Option.getD_some]
    rw [getAtPath, if_neg hnnT2, jsGet_jsAssign_same hT2 rfl]
    exact ih v hobj

theorem objLookup_none_of_not_contains {l : List (String × JsonValue)} {k : String}
    (h : (l.map Prod.fst).contains k = false) : objLookup l k = none := by
  induction l with
  | nil => rfl
  | cons hd t ih =>
    obtain ⟨k0, w⟩ := hd
    simp only [List.map_cons, List.contains_cons, Bool.or_eq_false_iff] at h
    have hk : ¬ k0 = k := by
      intro hkk
      subst hkk
      simp at h
    simp only [objLookup, if_neg hk]
    exact ih h.2

theorem objLookup_mergeEntries_absent : ∀ (ds : List (String × JsonValue)) (k : String),
    objLookup ds k = none → ∀ es, objLookup (mergeEntries es ds) k = objLookup es k := by
  intro ds
  induction ds with
  | nil =>
    intro k _ es
    rfl
  | cons hd t ih =>
    intro k h es
    obtain ⟨k0, v0⟩ := hd
    have hk : ¬ k0 = k := by
      intro hkk
      simp [objLookup, hkk] at h
    simp only [objLookup, if_neg hk] at h
    show objLookup (mergeEntries (objSet es k0 v0) t) k = objLookup es k
    rw [ih k h, objLookup_objSet_other _ _ _ _ (fun hkk => hk hkk.symm)]

theorem objLookup_mergeEntries_found : ∀ (ds : List (String × JsonValue)),
    nodupKeys ds = true → ∀ (k : String) (v : JsonValue), objLookup ds k = some v →
    ∀ es, objLookup (mergeEntries es ds) k = some v := by
  intro ds
  induction ds with
  | nil =>
    intro _ k v h
    exact absurd h (by simp [objLookup])
  | cons hd t ih =>
    intro hnd k v h es
    obtain ⟨k0, v0⟩ := hd
    simp only [nodupKeys, Bool.and_eq_true, Bool.not_eq_true'] at hnd
    by_cases hk : k0 = k
    · subst hk
      simp only [objLookup, if_pos rfl] at h
      obtain rfl : v0 = v := Option.some.inj h
      have ht : objLookup t k0 = none := objLookup_none_of_not_contains hnd.1
      show objLookup (mergeEntries (objSet es k0 v0) t) k0 = some v0
      rw [objLookup_mergeEntries_absent t k0 ht, objLookup_objSet_self]
    · simp only [objLookup, if_neg hk] at h
      show objLookup (mergeEntries (objSet es k0 v0) t) k = some v
      exact ih hnd.2 k v h _

theorem handleSave_of_saveRoot_none {parse : String → Option JsonValue} {st : EditorState}
    (h : saveRoot parse st = none) : handleSave parse st = st := by
  unfold handleSave
  by_cases hg : (!st.isEditing || (parse st.draft).isNone) = true
  · rw [if_pos hg]
  · rw [if_neg hg, h]

theorem saveRoot_draft_some {parse : String → Option JsonValue} {st : EditorState}
    {newRoot : JsonValue} (h : saveRoot parse st = some newRoot) :
    (parse st.draft).isNone = false := by
  unfold saveRoot at h
  cases hc : parse st.contents with
  | none => rw [hc] at h; exact absurd h (by simp)
  | some root =>
    cases hd : parse st.draft with
    | none => rw [hc, hd] at h; exact absurd h (by simp)
    | some d => simp [hd]

theorem handleSave_of_saveRoot_some {parse : String → Option JsonValue} {st : EditorState}
    {newRoot : JsonValue} (hE : st.isEditing = true) (h : saveRoot parse st = some newRoot) :
    handleSave parse st =
      { st with contents := jsonStr "" newRoot, hasChanges := true, isEditing := false } := by
  unfold handleSave
  have hg : (!st.isEditing || (parse st.draft).isNone) = false := by
    rw [hE, saveRoot_draft_some h]
    rfl
  rw [if_neg (by simp [hg]), h]

theorem saveRoot_merge {parse : String → Option JsonValue} {st : EditorState}
    {root : JsonValue} {ds cs : List (String × JsonValue)}
    (hc : parse st.contents = some root) (hd : parse st.draft = some (.obj ds))
    (hcur : getAtPath root st.path = .obj cs) :
    saveRoot parse st = some (updAt root st.path (.obj (mergeEntries cs ds))) := by
  unfold saveRoot
  rw [hc, hd]
  show (if isPlainObjB (.obj ds) && isPlainObjB (getAtPath root st.path) then _ else _) = _
  rw [hcur]
  simp only [isPlainObjB, Bool.and_self, if_pos]
  rfl

theorem saveRoot_replace {parse : String → Option JsonValue} {st : EditorState}
    {root d : JsonValue}
    (hc : parse st.contents = some root) (hd : parse st.draft = some d)
    (hguard : (isPlainObjB d && isPlainObjB (getAtPath root st.path)) = false)
    (hne : st.path ≠ []) :
    saveRoot parse st = setAtPath root st.path d := by
  unfold saveRoot
  rw [hc, hd]
  show (if isPlainObjB d && isPlainObjB (getAtPath root st.path) then _ else _) = _
  rw [hguard]
  cases hp : st.path with
  | nil => exact absurd hp hne
  | cons s r => simp

theorem saveRoot_replace_nil {parse : String → Option JsonValue} {st : EditorState}
    {root d : JsonValue}
    (hc : parse st.contents = some root) (hd : parse st.draft = some d)
    (hguard : (isPlainObjB d && isPlainObjB (getAtPath root st.path)) = false)
    (hnil : st.path = []) :
    saveRoot parse st = some root := by
  unfold saveRoot
  rw [hc, hd]
  show (if isPlainObjB d && isPlainObjB (getAtPath root st.path) then _ else _) = _
  rw [hguard, hnil]
  simp

/-- C1: for a save in which the parsed draft is a non-null non-array Object
and the current value at `node.path` in the freshly parsed document is also
a non-null non-array Object, the committed root carries at the path the
shallow merge of the draft over the current value: every draft key maps to
the draft's value, and every current key absent from the draft keeps its
pre-save value (nested sub-values included). -/
theorem save_merge_shallow (parse : String → Option JsonValue) (st : EditorState)
    (root : JsonValue) (ds cs : List (String × JsonValue))
    (hE : st.isEditing = true)
    (hc : parse st.contents = some root)
    (hd : parse st.draft = some (.obj ds))
    (hcur : getAtPath root st.path = .obj cs)
    (hnd : nodupKeys ds = true) :
    (handleSave parse st).contents =
        jsonStr "" (updAt root st.path (.obj (mergeEntries cs ds)))
      ∧ getAtPath (updAt root st.path (.obj (mergeEntries cs ds))) st.path =
          .obj (mergeEntries cs ds)
      ∧ (∀ k v, objLookup ds k = some v → objLookup (mergeEntries cs ds) k = some v)
      ∧ (∀ k, objLookup ds k = none → objLookup (mergeEntries cs ds) k = objLookup cs k) := by
  have hsv := saveRoot_merge hc hd hcur
  refine ⟨?_, ?_, ?_, ?_⟩
  · rw [handleSave_of_saveRoot_some hE hsv]
  · exact getAtPath_updAt st.path _ (by rw [hcur]; rfl)
  · intro k v h
    exact objLookup_mergeEntries_found ds hnd k v h cs
  · intro k h
    exact objLookup_mergeEntries_absent ds k h cs

/-- Witness for C1 at the spec's own example: current `(a:1, b:(x:1))`,
draft `(a:2)`; the untouched key `b` keeps its nested value. -/
theorem save_merge_shallow_witness :
    objLookup (mergeEntries [("a", JsonValue.num 1), ("b", JsonValue.obj [("x", JsonValue.num 1)])]
        [("a", JsonValue.num 2)]) "b" = some (JsonValue.obj [("x", JsonValue.num 1)]) :=
  (save_merge_shallow
    (fun s => if s = "D" then some (JsonValue.obj [("a", JsonValue.num 2)])
      else if s = "R" then
        some (JsonValue.obj [("a", JsonValue.num 1), ("b", JsonValue.obj [("x", JsonValue.num 1)])])
      else none)
    ⟨true, "D", none, "R", false, []⟩
    (JsonValue.obj [("a", JsonValue.num 1), ("b", JsonValue.obj [("x", JsonValue.num 1)])])
    [("a", JsonValue.num 2)]
    [("a", JsonValue.num 1), ("b", JsonValue.obj [("x", JsonValue.num 1)])]
    rfl rfl rfl rfl rfl).2.2.2 "b" rfl

/-- C2 counterexample: with the stored document `"5"` (a scalar root) and a
non-empty path, the replace branch throws inside `setAtPath` (strict-mode
`TypeError` assigning a property on a primitive), the exception is caught,
and nothing is committed, so the value at the path is not the parsed draft;
the claim as stated is false at this input. -/
theorem save_replace_cex :
    handleSave (fun s => if s = "5" then some (JsonValue.num 5)
        else if s = "[1]" then some (JsonValue.arr [JsonValue.num 1] []) else none)
      ⟨true, "[1]", none, "5", false, [Seg.key "a"]⟩ =
      ⟨true, "[1]", none, "5", false, [Seg.key "a"]⟩
    ∧ getAtPath (JsonValue.num 5) [Seg.key "a"] = JsonValue.undefined
    ∧ JsonValue.undefined ≠ JsonValue.arr [JsonValue.num 1] [] := by
  refine ⟨rfl, rfl, ?_⟩
  intro h
  exact JsonValue.noConfusion h

/-- C2 amended: for a save taking the replace branch (parsed draft a
scalar or Array, or current value at `node.path` missing, null or not a
plain Object), when `node.path` is non-empty and the parsed root is a
container the committed value at `node.path` is exactly the parsed draft
(full replacement via `setAtPath`, intermediates auto-created); at the
empty path the source discards `setAtPath`'s returned tree (line 112), so
the document is committed unchanged. -/
theorem save_replace_committed :
    (∀ (parse : String → Option JsonValue) (st : EditorState) (root d : JsonValue),
      st.isEditing = true → parse st.contents = some root → parse st.draft = some d →
      (isPlainObjB d && isPlainObjB (getAtPath root st.path)) = false →
      st.path ≠ [] → isContainer root = true →
      ∃ newRoot, setAtPath root st.path d = some newRoot
        ∧ (handleSave parse st).contents = jsonStr "" newRoot
        ∧ getAtPath newRoot st.path = d)
    ∧ (∀ (parse : String → Option JsonValue) (st : EditorState) (root d : JsonValue),
      st.isEditing = true → parse st.contents = some root → parse st.draft = some d →
      (isPlainObjB d && isPlainObjB (getAtPath root st.path)) = false →
      st.path = [] →
      (handleSave parse st).contents = jsonStr "" root) := by
  constructor
  · intro parse st root d hE hc hd hguard hne hroot
    obtain ⟨newRoot, hset⟩ := setAtPath_some st.path root d (Or.inr hroot)
    refine ⟨newRoot, hset, ?_, getAtPath_setAtPath st.path hset⟩
    have hsv : saveRoot parse st = some newRoot := by
      rw [saveRoot_replace hc hd hguard hne, hset]
    rw [handleSave_of_saveRoot_some hE hsv]
  · intro parse st root d hE hc hd hguard hnil
    have hsv := saveRoot_replace_nil hc hd hguard hnil
    rw [handleSave_of_saveRoot_some hE hsv]

/-- Witness for the amended C2: the spec's replace-on-type-mismatch example
(current `[1,2,3]`, draft `(a:1)`) at the non-empty path `["l"]` commits
the draft there, and at the empty path the same mismatch commits the
document unchanged. -/
theorem save_replace_committed_witness :
    (∃ newRoot,
      setAtPath
          (JsonValue.obj [("l",
            JsonValue.arr [JsonValue.num 1, JsonValue.num 2, JsonValue.num 3] [])])
          [Seg.key "l"] (JsonValue.obj [("a", JsonValue.num 1)]) = some newRoot
      ∧ (handleSave
          (fun s => if s = "O" then some (JsonValue.obj [("a", JsonValue.num 1)])
            else if s = "R" then
              some (JsonValue.obj [("l",
                JsonValue.arr [JsonValue.num 1, JsonValue.num 2, JsonValue.num 3] [])])
            else none)
          ⟨true, "O", none, "R", false, [Seg.key "l"]⟩).contents = jsonStr "" newRoot
      ∧ getAtPath newRoot [Seg.key "l"] = JsonValue.obj [("a", JsonValue.num 1)])
    ∧ (handleSave
        (fun s => if s = "O" then some (JsonValue.obj [("a", JsonValue.num 1)])
          else if s = "A" then
            some (JsonValue.arr [JsonValue.num 1, JsonValue.num 2, JsonValue.num 3] [])
          else none)
        ⟨true, "O", none, "A", false, []⟩).contents =
      jsonStr "" (JsonValue.arr [JsonValue.num 1, JsonValue.num 2, JsonValue.num 3] []) :=
  ⟨save_replace_committed.1
    (fun s => if s = "O" then some (JsonValue.obj [("a", JsonValue.num 1)])
      else if s = "R" then
        some (JsonValue.obj [("l",
          JsonValue.arr [JsonValue.num 1, JsonValue.num 2, JsonValue.num 3] [])])
      else none)
    ⟨true, "O", none, "R", false, [Seg.key "l"]⟩
    (JsonValue.obj [("l",
      JsonValue.arr [JsonValue.num 1, JsonValue.num 2, JsonValue.num 3] [])])
    (JsonValue.obj [("a", JsonValue.num 1)])
    rfl rfl rfl rfl (by decide) rfl,
  save_replace_committed.2
    (fun s => if s = "O" then some (JsonValue.obj [("a", JsonValue.num 1)])
      else if s = "A" then
        some (JsonValue.arr [JsonValue.num 1, JsonValue.num 2, JsonValue.num 3] [])
      else none)
    ⟨true, "O", none, "A", false, []⟩
    (JsonValue.arr [JsonValue.num 1, JsonValue.num 2, JsonValue.num 3] [])
    (JsonValue.obj [("a", JsonValue.num 1)])
    rfl rfl rfl rfl rfl⟩

/-- C3 counterexample: with a null root and a non-empty path, `set` throws
(there is no resulting tree), so the round-trip equation has no witness at
this input; the claim quantified over every tree is false. -/
theorem get_set_roundtrip_cex :
    ¬ ∃ T2, setAtPath JsonValue.null [Seg.key "a"] (JsonValue.num 1) = some T2
        ∧ getAtPath T2 [Seg.key "a"] = JsonValue.num 1 := by
  rintro ⟨T2, h, -⟩
  exact absurd h (by simp [setAtPath, jsAssign])

/-- C3 amended: for every tree whose root is a container (or an empty
path), `set` succeeds and reading back at the written path returns the
written value: `get (set T p v) p = v`. -/
theorem get_set_roundtrip (T : JsonValue) (p : List Seg) (v : JsonValue)
    (h : p = [] ∨ isContainer T = true) :
    ∃ T2, setAtPath T p v = some T2 ∧ getAtPath T2 p = v := by
  obtain ⟨T2, hs⟩ := setAtPath_some p T v h
  exact ⟨T2, hs, getAtPath_setAtPath p hs⟩

/-- Witness for the amended C3 on a container root with a two-segment path
through a missing intermediate. -/
theorem get_set_roundtrip_witness :
    ∃ T2, setAtPath (JsonValue.obj [("a", JsonValue.num 1)]) [Seg.key "b", Seg.idx 1]
        (JsonValue.str "x") = some T2
      ∧ getAtPath T2 [Seg.key "b", Seg.idx 1] = JsonValue.str "x" :=
  get_set_roundtrip _ _ _ (Or.inr rfl)

/-- C4 counterexample: a number segment and the string segment of its
decimal rendering are distinct path segments, so `[idx 0]` and
`[key "0"]` are prefix-incomparable as stated, yet JS key coercion makes
them address the same object property: writing at `[idx 0]` changes the
value read at `[key "0"]` from 1 to 2. -/
theorem set_frame_cex :
    setAtPath (JsonValue.obj [("0", JsonValue.num 1)]) [Seg.idx 0] (JsonValue.num 2)
        = some (JsonValue.obj [("0", JsonValue.num 2)])
      ∧ initOf [Seg.idx 0] [Seg.key "0"] = false
      ∧ initOf [Seg.key "0"] [Seg.idx 0] = false
      ∧ getAtPath (JsonValue.obj [("0", JsonValue.num 1)]) [Seg.key "0"] = JsonValue.num 1
      ∧ getAtPath (JsonValue.obj [("0", JsonValue.num 2)]) [Seg.key "0"] = JsonValue.num 2
      ∧ JsonValue.num 1 ≠ JsonValue.num 2 := by
  refine ⟨rfl, rfl, rfl, rfl, rfl, ?_⟩
  intro h
  injection h with h2
  exact absurd h2 (by decide)

/-- C4 amended: comparing paths after canonicalizing segments (a number
and the string of its decimal rendering denote the same location), a
successful `set` at `p` leaves the value unchanged at every path that is
prefix-incomparable with `p`. -/
theorem set_frame_canonical (T : JsonValue) (p : List Seg) (v T2 : JsonValue)
    (q : List Seg) (hset : setAtPath T p v = some T2)
    (h1 : initOf (canonList p) (canonList q) = false)
    (h2 : initOf (canonList q) (canonList p) = false) :
    getAtPath T2 q = getAtPath T q :=
  setAtPath_frame p q hset h1 h2

/-- Witness for the amended C4: writing at key `a` leaves the sibling key
`b` unchanged. -/
theorem set_frame_canonical_witness :
    getAtPath (JsonValue.obj [("a", JsonValue.num 5), ("b", JsonValue.num 9)]) [Seg.key "b"]
      = getAtPath (JsonValue.obj [("a", JsonValue.num 1), ("b", JsonValue.num 9)]) [Seg.key "b"] :=
  set_frame_canonical (JsonValue.obj [("a", JsonValue.num 1), ("b", JsonValue.num 9)])
    [Seg.key "a"] (JsonValue.num 5)
    (JsonValue.obj [("a", JsonValue.num 5), ("b", JsonValue.num 9)])
    [Seg.key "b"] rfl rfl rfl

/-- C5 counterexample: with a primitive root (the number 5) and a non-empty
path, the final assignment `ref[last] = value` is a strict-mode property
write on a primitive, which throws: `set` fails, refuting "set never
fails" as universally stated. -/
theorem set_total_cex :
    ¬ ∃ T2, setAtPath (JsonValue.num 5) [Seg.key "a"] JsonValue.null = some T2 := by
  rintro ⟨T2, h⟩
  exact absurd h (by simp [setAtPath, jsAssign])

/-- C5 amended: whenever the root is an Object or Array (or the path is
empty), `set` never fails: absent or non-container intermediates are
replaced by a fresh empty Array when the next segment is a number and a
fresh empty Object otherwise, so the write always succeeds by growing the
tree. -/
theorem set_total_on_containers (T : JsonValue) (p : List Seg) (v : JsonValue)
    (h : p = [] ∨ isContainer T = true) : ∃ T2, setAtPath T p v = some T2 :=
  setAtPath_some p T v h

/-- Witness for the amended C5: writing deep into an empty array pads and
materializes intermediates and succeeds. -/
theorem set_total_on_containers_witness :
    ∃ T2, setAtPath (JsonValue.arr [] []) [Seg.idx 3, Seg.key "x"] (JsonValue.bool true)
      = some T2 :=
  set_total_on_containers _ _ _ (Or.inr rfl)

/-- C6 counterexample: the path itself is one of its own prefixes, and a
null value sitting exactly at the path is returned as null, not as
Missing; so "returns Missing whenever any prefix of p resolves to absent
or null" is false as stated. -/
theorem get_missing_cex :
    getAtPath (JsonValue.obj [("a", JsonValue.null)]) [Seg.key "a"] = JsonValue.null
      ∧ JsonValue.null ≠ JsonValue.undefined :=
  ⟨rfl, fun h => JsonValue.noConfusion h⟩

/-- C6 amended: `get` is total (the model function never throws), returns
the root on the empty path, and returns Missing (`undefined`) whenever a
proper prefix of the path resolves to an absent or null value. -/
theorem get_total_missing :
    (∀ T : JsonValue, getAtPath T [] = T)
    ∧ ∀ (T : JsonValue) (q r : List Seg), r ≠ [] → isNullish (getAtPath T q) = true →
        getAtPath T (q ++ r) = JsonValue.undefined := by
  refine ⟨fun T => rfl, ?_⟩
  intro T q r hr hq
  rw [getAtPath_append]
  cases r with
  | nil => exact absurd rfl hr
  | cons x xs =>
    cases hg : getAtPath T q with
    | null => simp [getAtPath, isNullish]
    | undefined => exact getAtPath_undefined _
    | bool b => rw [hg] at hq; exact absurd hq (by simp [isNullish])
    | num n => rw [hg] at hq; exact absurd hq (by simp [isNullish])
    | str s => rw [hg] at hq; exact absurd hq (by simp [isNullish])
    | arr elems props => rw [hg] at hq; exact absurd hq (by simp [isNullish])
    | obj es => rw [hg] at hq; exact absurd hq (by simp [isNullish])

/-- Witness for the amended C6: a dangling path below a null value reads
back as Missing, and the empty path returns the root. -/
theorem get_total_missing_witness :
    getAtPath (JsonValue.obj []) [] = JsonValue.obj []
    ∧ getAtPath (JsonValue.obj [("a", JsonValue.null)]) ([Seg.key "a"] ++ [Seg.key "b"])
        = JsonValue.undefined :=
  ⟨get_total_missing.1 _,
    get_total_missing.2 _ [Seg.key "a"] [Seg.key "b"] (by simp) rfl⟩

/-- C7: when any step of the save fails (fetch parse, draft parse, or the
write-back throwing), the exception is caught and the whole session state
is returned unchanged: committed text, editing flag, draft and error are
exactly as at the start of the call. -/
theorem save_failure_state (parse : String → Option JsonValue) (st : EditorState)
    (h : saveRoot parse st = none) : handleSave parse st = st :=
  handleSave_of_saveRoot_none h

/-- Witness for C7: the stored document text fails to parse, and the save
attempt leaves the state intact. -/
theorem save_failure_state_witness :
    handleSave (fun s => if s = "[2]" then some (JsonValue.arr [JsonValue.num 2] []) else none)
      ⟨true, "[2]", none, "oops", false, []⟩ =
      ⟨true, "[2]", none, "oops", false, []⟩ :=
  save_failure_state _ _ rfl

theorem buildObj_eq_specMap (rows : List NodeRow) : buildObj rows = specMap rows := by
  have main : ∀ (l : List NodeRow) (acc : List (String × JsonValue)),
      l.foldl (fun acc r =>
        if r.type ≠ "array" ∧ r.type ≠ "object" then
          (if keyTruthy r.key then objSet acc (r.key.getD "") r.value else acc)
        else acc) acc =
      (l.filter rowIncluded).foldl (fun acc r => objSet acc (r.key.getD "") r.value) acc := by
    intro l
    induction l with
    | nil =>
      intro acc
      rfl
    | cons r t ih =>
      intro acc
      simp only [List.foldl_cons]
      by_cases h1 : r.type ≠ "array" ∧ r.type ≠ "object"
      · rw [if_pos h1]
        cases hk : keyTruthy r.key with
        | true =>
          rw [if_pos rfl]
          have hri : rowIncluded r = true := by simp [rowIncluded, h1.1, h1.2, hk]
          rw [show (r :: t).filter rowIncluded = r :: t.filter rowIncluded from by
            simp [List.filter_cons, hri]]
          simp only [List.foldl_cons]
          exact ih _
        | false =>
          rw [if_neg (by simp)]
          have hri : rowIncluded r = false := by simp [rowIncluded, hk]
          rw [show (r :: t).filter rowIncluded = t.filter rowIncluded from by
            simp [List.filter_cons, hri]]
          exact ih acc
      · rw [if_neg h1]
        have hri : rowIncluded r = false := by
          rw [not_and_or] at h1
          rcases h1 with h1 | h1
          · simp only [ne_eq, not_not] at h1
            simp [rowIncluded, h1]
          · simp only [ne_eq, not_not] at h1
            simp [rowIncluded, h1]
        rw [show (r :: t).filter rowIncluded = t.filter rowIncluded from by
          simp [List.filter_cons, hri]]
        exact ih acc
  exact main rows []

/-- C8: normalize has exactly three cases: empty or absent rows give the
literal text of an empty object; exactly one row with no (truthy) key
gives the row's value rendered verbatim by JS string coercion, not
re-escaped as a JSON literal; otherwise the output is the 2-space pretty
JSON serialization of the ordered mapping over the rows that are neither
"array"- nor "object"-typed and have a present key. -/
theorem normalize_cases :
    (normalizeNodeData none = "\x7b\x7d")
    ∧ (normalizeNodeData (some []) = "\x7b\x7d")
    ∧ (∀ r : NodeRow, keyTruthy r.key = false →
        normalizeNodeData (some [r]) = jsToString r.value)
    ∧ (∀ rows : List NodeRow,
        (2 ≤ rows.length ∨ ∃ r, rows = [r] ∧ keyTruthy r.key = true) →
        normalizeNodeData (some rows) = jsonStr "" (JsonValue.obj (specMap rows))) := by
  refine ⟨rfl, rfl, ?_, ?_⟩
  · intro r hk
    simp only [normalizeNodeData]
    rw [if_neg (by simp [hk])]
  · intro rows h
    cases rows with
    | nil =>
      rcases h with h | ⟨r, hr, -⟩
      · simp at h
      · exact absurd hr (by simp)
    | cons r1 t =>
      cases t with
      | nil =>
        rcases h with h | ⟨r, hr, hk⟩
        · simp at h
        · obtain rfl : r1 = r := (List.cons.inj hr).1
          simp only [normalizeNodeData]
          rw [if_pos hk, buildObj_eq_specMap]
      | cons r2 t2 =>
        show jsonStr "" (JsonValue.obj (buildObj (r1 :: r2 :: t2))) = _
        rw [buildObj_eq_specMap]

/-- Witness for C8 in the single-unkeyed-row case: a bare boolean row is
rendered verbatim. -/
theorem normalize_cases_witness :
    normalizeNodeData (some [⟨none, JsonValue.bool true, "boolean"⟩]) =
      jsToString (JsonValue.bool true) :=
  normalize_cases.2.2.1 ⟨none, JsonValue.bool true, "boolean"⟩ rfl

/-- C10: key presence is JavaScript truthiness, so an empty-string key
counts as absent: a single row keyed by the empty string falls into the
raw-value case, and in the general case rows keyed by the empty string are
dropped, so an empty-string key is never emitted. -/
theorem normalize_empty_key :
    (∀ r : NodeRow, r.key = some "" → normalizeNodeData (some [r]) = jsToString r.value)
    ∧ ∀ rows : List NodeRow, objLookup (buildObj rows) "" = none := by
  constructor
  · intro r hk
    simp only [normalizeNodeData]
    rw [if_neg (by simp [hk, keyTruthy])]
  · have go : ∀ (rows : List NodeRow) (acc : List (String × JsonValue)),
        objLookup acc "" = none →
        objLookup (rows.foldl (fun acc r =>
          if r.type ≠ "array" ∧ r.type ≠ "object" then
            (if keyTruthy r.key then objSet acc (r.key.getD "") r.value else acc)
          else acc) acc) "" = none := by
      intro rows
      induction rows with
      | nil =>
        intro acc h
        exact h
      | cons r t ih =>
        intro acc h
        simp only [List.foldl_cons]
        apply ih
        by_cases h1 : r.type ≠ "array" ∧ r.type ≠ "object"
        · rw [if_pos h1]
          cases hk : keyTruthy r.key with
          | false => simpa using h
          | true =>
            rw [if_pos rfl]
            have hne : r.key.getD "" ≠ "" := by
              cases hkey : r.key with
              | none => rw [hkey] at hk; exact absurd hk (by simp [keyTruthy])
              | some s =>
                rw [hkey] at hk
                simp only [keyTruthy] at hk
                by_cases hs : s = ""
                · rw [if_pos hs] at hk
                  exact absurd hk (by simp)
                · simpa [Option.getD] using hs
            rw [objLookup_objSet_other _ _ _ _ (fun he => hne he.symm)]
            exact h
        · rw [if_neg h1]
          exact h
    intro rows
    exact go rows [] rfl

/-- Witness for C10: a single row keyed by the empty string is rendered as
its raw value, not as an object member. -/
theorem normalize_empty_key_witness :
    normalizeNodeData (some [⟨some "", JsonValue.num 3, "number"⟩]) =
      jsToString (JsonValue.num 3) :=
  normalize_empty_key.1 ⟨some "", JsonValue.num 3, "number"⟩ rfl

theorem natDigitsAux_ne_nil (fuel n : Nat) (h : n < fuel) : natDigitsAux fuel n ≠ [] := by
  cases fuel with
  | zero => omega
  | succ fuel =>
    simp only [natDigitsAux]
    split <;> simp

theorem natDigitsAux_all_digits : ∀ (fuel n : Nat), n < fuel →
    ∀ c ∈ natDigitsAux fuel n, isDigitCh c = true := by
  intro fuel
  induction fuel with
  | zero => omega
  | succ fuel ih =>
    intro n h c hc
    by_cases h10 : n < 10
    · simp only [natDigitsAux, if_pos h10, List.mem_singleton] at hc
      subst hc
      simp only [isDigitCh, charToNat_ofNat (48 + n) (by omega), Bool.and_eq_true,
        decide_eq_true_eq]
      omega
    · simp only [natDigitsAux, if_neg h10, List.mem_append, List.mem_singleton] at hc
      have hdiv : n / 10 < fuel := by
        have := Nat.div_lt_self (show 0 < n by omega) (show 1 < 10 by omega)
        omega
      rcases hc with hc | hc
      · exact ih (n / 10) hdiv c hc
      · subst hc
        have hm : n % 10 < 10 := Nat.mod_lt _ (by omega)
        simp only [isDigitCh, charToNat_ofNat (48 + n % 10) (by omega), Bool.and_eq_true,
          decide_eq_true_eq]
        omega

theorem natDigitsAux_head_ne_zero : ∀ (fuel n : Nat), n < fuel → n ≠ 0 →
    ∀ c t, natDigitsAux fuel n = c :: t → c ≠ '0' := by
  intro fuel
  induction fuel with
  | zero => omega
  | succ fuel ih =>
    intro n h hn c t heq
    by_cases h10 : n < 10
    · simp only [natDigitsAux, if_pos h10] at heq
      obtain ⟨rfl, -⟩ : Char.ofNat (48 + n) = c ∧ [] = t :=
        ⟨(List.cons.inj heq).1, (List.cons.inj heq).2⟩
      intro h0
      have hv := charToNat_ofNat (48 + n) (by omega)
      rw [h0] at hv
      have h0n : ('0').toNat = 48 := by decide
      omega
    · simp only [natDigitsAux, if_neg h10] at heq
      have hdiv : n / 10 < fuel := by
        have := Nat.div_lt_self (show 0 < n by omega) (show 1 < 10 by omega)
        omega
      cases haux : natDigitsAux fuel (n / 10) with
      | nil => exact absurd haux (natDigitsAux_ne_nil _ _ hdiv)
      | cons c2 t2 =>
        rw [haux, List.cons_append] at heq
        obtain rfl : c2 = c := (List.cons.inj heq).1
        exact ih (n / 10) hdiv (by omega) c2 t2 haux

theorem jnumIntRest_all_digits : ∀ (l : List Char), (∀ c ∈ l, isDigitCh c = true) →
    jnumIntRest l = true := by
  intro l
  induction l with
  | nil => intro _; rfl
  | cons c r ih =>
    intro h
    have hc : isDigitCh c = true := h c (by simp)
    have hdot : ¬ c = '.' := by
      intro he
      subst he
      exact absurd hc (by decide)
    have he2 : ¬ (c = 'e' ∨ c = 'E') := by
      rintro (he | he) <;> (subst he; exact absurd hc (by decide))
    simp only [jnumIntRest, if_neg hdot, if_neg he2, hc, Bool.true_and]
    exact ih (fun c2 h2 => h c2 (by simp [h2]))

theorem jnumBody_natDigits (n : Nat) : jnumBody (natDigits n) = true := by
  have hall := natDigitsAux_all_digits (n + 1) n (Nat.lt_succ_self n)
  show jnumBody (natDigitsAux (n + 1) n) = true
  cases hl : natDigitsAux (n + 1) n with
  | nil => exact absurd hl (natDigitsAux_ne_nil _ _ (Nat.lt_succ_self n))
  | cons c t =>
    by_cases hc0 : c = '0'
    · by_cases hn : n = 0
      · subst hn
        have : natDigitsAux 1 0 = [Char.ofNat 48] := rfl
        rw [this] at hl
        obtain ⟨-, rfl⟩ : Char.ofNat 48 = c ∧ t = [] :=
          ⟨(List.cons.inj hl).1, (List.cons.inj hl).2.symm⟩
        simp [jnumBody, hc0, jnumAfterInt]
      · exact absurd hc0 (natDigitsAux_head_ne_zero (n + 1) n (Nat.lt_succ_self n) hn c t hl)
    · have hc : isDigitCh c = true := by
        apply hall c
        rw [hl]
        simp
      simp only [jnumBody, if_neg hc0, hc, Bool.true_and]
      apply jnumIntRest_all_digits
      intro c2 h2
      apply hall c2
      rw [hl]
      simp [h2]

theorem jnum_renderInt (i : Int) : jnum (renderInt i).data = true := by
  unfold renderInt
  by_cases hi : i < 0
  · rw [if_pos hi]
    show jnum ('-' :: natDigits i.natAbs) = true
    have : jnum ('-' :: natDigits i.natAbs) = jnumBody (natDigits i.natAbs) := by
      simp [jnum]
    rw [this]
    exact jnumBody_natDigits _
  · rw [if_neg hi]
    show jnum (natDigits i.natAbs) = true
    cases hl : natDigits i.natAbs with
    | nil => exact absurd hl (natDigits_ne_nil _)
    | cons c t =>
      have hc : isDigitCh c = true := by
        apply natDigitsAux_all_digits (i.natAbs + 1) i.natAbs (Nat.lt_succ_self _) c
        show c ∈ natDigitsAux (i.natAbs + 1) i.natAbs
        rw [show natDigitsAux (i.natAbs + 1) i.natAbs = natDigits i.natAbs from rfl, hl]
        simp
      have hminus : ¬ c = '-' := by
        intro he
        subst he
        exact absurd hc (by decide)
      simp only [jnum, if_neg hminus]
      rw [← hl]
      exact jnumBody_natDigits _

theorem isHexCh_hexDigit (k : Nat) (h : k < 16) : isHexCh (hexDigit k) = true := by
  unfold hexDigit
  by_cases h10 : k < 10
  · rw [if_pos h10]
    simp only [isHexCh, isDigitCh, charToNat_ofNat (48 + k) (by omega), Bool.or_eq_true,
      Bool.and_eq_true, decide_eq_true_eq]
    omega
  · rw [if_neg h10]
    simp only [isHexCh, isDigitCh, charToNat_ofNat (87 + k) (by omega), Bool.or_eq_true,
      Bool.and_eq_true, decide_eq_true_eq]
    omega

theorem jstrBodyEnd_escChars : ∀ (l : List Char), jstrBodyEnd (escChars l ++ ['"']) = true := by
  intro l
  induction l with
  | nil => rfl
  | cons c t ih =>
    show jstrBodyEnd ((escChar c ++ escChars t) ++ ['"']) = true
    rw [List.append_assoc]
    unfold escChar
    by_cases h1 : c = '"'
    · rw [if_pos h1, List.cons_append, List.cons_append, List.nil_append, jstrBodyEnd.eq_def]
      simp [isEscCh, ih]
    · rw [if_neg h1]
      by_cases h2 : c = '\\'
      · rw [if_pos h2, List.cons_append, List.cons_append, List.nil_append, jstrBodyEnd.eq_def]
        simp [isEscCh, ih]
      · rw [if_neg h2]
        by_cases h3 : c = '\x08'
        · rw [if_pos h3, List.cons_append, List.cons_append, List.nil_append, jstrBodyEnd.eq_def]
          simp [isEscCh, ih]
        · rw [if_neg h3]
          by_cases h4 : c = '\t'
          · rw [if_pos h4, List.cons_append, List.cons_append, List.nil_append,
              jstrBodyEnd.eq_def]
            simp [isEscCh, ih]
          · rw [if_neg h4]
            by_cases h5 : c = '\n'
            · rw [if_pos h5, List.cons_append, List.cons_append, List.nil_append,
                jstrBodyEnd.eq_def]
              simp [isEscCh, ih]
            · rw [if_neg h5]
              by_cases h6 : c = '\x0c'
              · rw [if_pos h6, List.cons_append, List.cons_append, List.nil_append,
                  jstrBodyEnd.eq_def]
                simp [isEscCh, ih]
              · rw [if_neg h6]
                by_cases h7 : c = '\r'
                · rw [if_pos h7, List.cons_append, List.cons_append, List.nil_append,
                    jstrBodyEnd.eq_def]
                  simp [isEscCh, ih]
                · rw [if_neg h7]
                  by_cases h8 : c.toNat < 32
                  · rw [if_pos h8]
                    have hx1 := isHexCh_hexDigit (c.toNat / 16) (by omega)
                    have hx2 := isHexCh_hexDigit (c.toNat % 16) (by omega)
                    simp only [List.cons_append, List.nil_append]
                    rw [jstrBodyEnd.eq_def]
                    simp [hx1, hx2, ih, show isHexCh '0' = true from by decide]
                  · rw [if_neg h8]
                    simp only [List.cons_append, List.nil_append]
                    rw [jstrBodyEnd.eq_def]
                    simp only [if_neg h1, if_neg h2, Bool.and_eq_true, decide_eq_true_eq]
                    exact ⟨by omega, ih⟩

theorem jstr_qstr (s : String) : jstr (qstr s).data = true := by
  show jstr ('"' :: (escChars s.data ++ ['"'])) = true
  simp only [jstr, if_pos rfl]
  exact jstrBodyEnd_escChars _

theorem strDataApp (a b : String) : (a ++ b).data = a.data ++ b.data := rfl

theorem wsb_append2 (a b : List Char) (ha : wsb a = true) (hb : wsb b = true) :
    wsb (a ++ b) = true := by
  simp only [wsb, List.all_append, Bool.and_eq_true] at *
  exact ⟨ha, hb⟩

theorem wsb_nl_cons (w : List Char) (h : wsb w = true) : wsb ('\n' :: w) = true := by
  have := wsb_append2 ['\n'] w (by decide) h
  simpa using this

theorem wsb_indent {ind : String} (h : wsb ind.data = true) :
    wsb (ind ++ "  ").data = true := by
  rw [strDataApp]
  exact wsb_append2 _ _ h (by decide)

theorem data_arrO : ("[\n" : String).data = ['[', '\n'] := rfl

theorem data_arrC : ("]" : String).data = [']'] := rfl

theorem data_objO : ("\x7b\n" : String).data = ['\x7b', '\n'] := rfl

theorem data_objC : ("\x7d" : String).data = ['\x7d'] := rfl

theorem data_nl : ("\n" : String).data = ['\n'] := rfl

theorem data_colonSp : (": " : String).data = [':', ' '] := rfl

theorem data_commaNl : (",\n" : String).data = [',', '\n'] := rfl

theorem data_empty : ("" : String).data = [] := rfl

mutual

theorem jsonStr_valid (v : JsonValue) (ind : String) (hind : wsb ind.data = true) :
    JVal (jsonStr ind v).data := by
  cases v with
  | null =>
    simp only [jsonStr]
    exact JVal.vnull
  | undefined =>
    simp only [jsonStr]
    exact JVal.vnull
  | bool b =>
    cases b with
    | false =>
      simp only [jsonStr]
      exact JVal.vfalse
    | true =>
      simp only [jsonStr]
      exact JVal.vtrue
  | num n =>
    simp only [jsonStr]
    exact JVal.vnum _ (jnum_renderInt n)
  | str s =>
    simp only [jsonStr]
    exact JVal.vstr _ (jstr_qstr s)
  | arr elems props =>
    cases elems with
    | nil =>
      simp only [jsonStr]
      exact JVal.varrE [] rfl
    | cons x t =>
      simp only [jsonStr]
      have hrec := jsonItems_valid (x :: t) (ind ++ "  ") (wsb_indent hind) (by simp)
        ['\n'] ('\n' :: ind.data) (by decide) (wsb_nl_cons _ hind)
      have hval := JVal.varrN _ hrec
      simpa only [strDataApp, data_arrO, data_arrC, data_nl, List.append_assoc,
        List.cons_append, List.nil_append] using hval
  | obj es =>
    simp only [jsonStr]
    by_cases hv : hasVisible es = true
    · rw [if_pos hv]
      have hrec := jsonMembers_valid es (ind ++ "  ") (wsb_indent hind) hv
        ['\n'] ('\n' :: ind.data) (by decide) (wsb_nl_cons _ hind)
      have hval := JVal.vobjN _ hrec
      simpa only [strDataApp, data_objO, data_objC, data_nl, List.append_assoc,
        List.cons_append, List.nil_append] using hval
    · rw [if_neg hv]
      exact JVal.vobjE [] rfl
termination_by sizeOf v

theorem jsonItems_valid (l : List JsonValue) (ind : String) (hind : wsb ind.data = true)
    (hne : l ≠ []) (w1 w2 : List Char) (hw1 : wsb w1 = true) (hw2 : wsb w2 = true) :
    JItems (w1 ++ (jsonItems ind l).data ++ w2) := by
  cases l with
  | nil => exact absurd rfl hne
  | cons x t =>
    cases t with
    | nil =>
      simp only [jsonItems]
      have hval := JItems.last (w1 ++ ind.data) (jsonStr ind x).data w2
        (wsb_append2 _ _ hw1 hind) (jsonStr_valid x ind hind) hw2
      simpa only [strDataApp, List.append_assoc] using hval
    | cons y t2 =>
      simp only [jsonItems]
      have hrec := jsonItems_valid (y :: t2) ind hind (by simp) ['\n'] w2 (by decide) hw2
      have hrec2 : JItems ('\n' :: ((jsonItems ind (y :: t2)).data ++ w2)) := hrec
      have hval := JItems.cons (w1 ++ ind.data) (jsonStr ind x).data []
        ('\n' :: ((jsonItems ind (y :: t2)).data ++ w2))
        (wsb_append2 _ _ hw1 hind) (jsonStr_valid x ind hind) rfl hrec2
      simpa only [strDataApp, data_commaNl, List.append_assoc, List.cons_append,
        List.nil_append] using hval
termination_by sizeOf l

theorem jsonMembers_valid : ∀ (l : List (String × JsonValue)) (ind : String),
    wsb ind.data = true → hasVisible l = true → ∀ (w1 w2 : List Char),
    wsb w1 = true → wsb w2 = true →
    JMembers (w1 ++ (jsonMembers ind l).data ++ w2)
  | [], ind, hind, hvis, w1, w2, hw1, hw2 => absurd hvis (by simp [hasVisible])
  | (k, v) :: t, ind, hind, hvis, w1, w2, hw1, hw2 => by
    simp only [jsonMembers]
    by_cases hu : isUndefB v = true
    · rw [if_pos hu]
      have hvt : hasVisible t = true := by
        simp only [hasVisible, List.any_cons, Bool.or_eq_true] at hvis
        rcases hvis with hh | hh
        · rw [hu] at hh
          simp at hh
        · simpa [hasVisible] using hh
      exact jsonMembers_valid t ind hind hvt w1 w2 hw1 hw2
    · rw [if_neg hu]
      by_cases hvt : hasVisible t = true
      · rw [if_pos hvt]
        have hrec := jsonMembers_valid t ind hind hvt ['\n'] w2 (by decide) hw2
        have hrec2 : JMembers ('\n' :: ((jsonMembers ind t).data ++ w2)) := hrec
        have hval := JMembers.cons (w1 ++ ind.data) (qstr k).data [] [' ']
          (jsonStr ind v).data [] ('\n' :: ((jsonMembers ind t).data ++ w2))
          (wsb_append2 _ _ hw1 hind) (jstr_qstr k) rfl (by decide)
          (jsonStr_valid v ind hind) rfl hrec2
        simpa only [strDataApp, data_colonSp, data_commaNl, List.append_assoc,
          List.cons_append, List.nil_append] using hval
      · rw [if_neg hvt]
        have hval := JMembers.last (w1 ++ ind.data) (qstr k).data [] [' ']
          (jsonStr ind v).data w2
          (wsb_append2 _ _ hw1 hind) (jstr_qstr k) rfl (by decide)
          (jsonStr_valid v ind hind) hw2
        simpa only [strDataApp, data_colonSp, data_empty, List.append_assoc,
          List.cons_append, List.nil_append, List.append_nil] using hval
termination_by l => sizeOf l

end

theorem JText_of_JVal {s : String} (h : JVal s.data) : JText s :=
  ⟨[], s.data, [], rfl, h, rfl, by simp⟩

/-- C9: for every row list respecting the data model (a single unkeyed row
holds a scalar), except the flagged case of a single unkeyed row holding a
String, the text produced by normalize is accepted by the JSON grammar
(i.e. `JSON.parse` succeeds on it). -/
theorem normalize_parses (rows : List NodeRow)
    (hwf : wfSingleRow rows = true)
    (hexc : singleStrRow rows = false) :
    JText (normalizeNodeData (some rows)) := by
  cases rows with
  | nil =>
    apply JText_of_JVal
    show JVal ("\x7b\x7d" : String).data
    exact JVal.vobjE [] rfl
  | cons r t =>
    cases t with
    | cons r2 t2 =>
      apply JText_of_JVal
      show JVal (jsonStr "" (JsonValue.obj (buildObj (r :: r2 :: t2)))).data
      exact jsonStr_valid _ "" rfl
    | nil =>
      by_cases hk : keyTruthy r.key = true
      · have hnorm : normalizeNodeData (some [r]) = jsonStr "" (JsonValue.obj (buildObj [r])) := by
          simp only [normalizeNodeData]
          rw [if_pos hk]
        rw [hnorm]
        exact JText_of_JVal (jsonStr_valid _ "" rfl)
      · have hkf : keyTruthy r.key = false := by
          cases hkk : keyTruthy r.key
          · rfl
          · exact absurd hkk hk
        have hnorm : normalizeNodeData (some [r]) = jsToString r.value := by
          simp only [normalizeNodeData]
          rw [if_neg (by simp [hkf])]
        have hsc : scalarShape r.value = true := by
          simp only [wfSingleRow] at hwf
          rw [if_neg (by simp [hkf])] at hwf
          exact hwf
        rw [hnorm]
        cases hv : r.value with
        | null =>
          rw [show jsToString JsonValue.null = "null" from by simp [jsToString]]
          exact JText_of_JVal JVal.vnull
        | bool b =>
          cases b with
          | false =>
            rw [show jsToString (JsonValue.bool false) = "false" from by simp [jsToString]]
            exact JText_of_JVal JVal.vfalse
          | true =>
            rw [show jsToString (JsonValue.bool true) = "true" from by simp [jsToString]]
            exact JText_of_JVal JVal.vtrue
        | num n =>
          rw [show jsToString (JsonValue.num n) = renderInt n from by simp [jsToString]]
          exact JText_of_JVal (JVal.vnum _ (jnum_renderInt n))
        | str s2 =>
          exact absurd hexc (by simp [singleStrRow, hkf, hv])
        | undefined =>
          rw [hv] at hsc
          exact absurd hsc (by simp [scalarShape])
        | arr elems props =>
          rw [hv] at hsc
          exact absurd hsc (by simp [scalarShape])
        | obj es =>
          rw [hv] at hsc
          exact absurd hsc (by simp [scalarShape])

/-- Witness for C9 on a two-row node whose container-typed row is dropped:
the normalized text is grammatical JSON. -/
theorem normalize_parses_witness :
    JText (normalizeNodeData (some [⟨some "a", JsonValue.num 1, "number"⟩,
      ⟨some "b", JsonValue.obj [("x", JsonValue.num 1)], "object"⟩])) :=
  normalize_parses _ rfl rfl
